import Mathlib

/-!
Verification of the panic_monitor crate (src/lib.rs).

The crate keeps a `Mutex<HashMap<ThreadId, Thread>>` of every thread that has
panicked, plus a `Condvar`.  `init` installs a panic hook that records the
panicking thread, broadcasts on the condvar, and chains to the previously
installed hook.  `wait`, `wait_timeout` and `check` scan a caller-supplied
watch list against the map, the first two looping on condvar wake-ups.

We embed the map as an association list with HashMap insert/get semantics,
and the two blocking loops as functions over an explicit schedule of observed
wake-ups: for `wait`, the map contents seen after each condvar wake-up; for
`wait_timeout`, additionally the measured elapsed time and the timed-out flag
of each wake-up.  `Option`/an outcome type record that a run may not return
within the modeled window.
-/

/-- `std::thread::ThreadId`: an opaque, equality-comparable thread identity. -/
abbrev ThreadId := Nat

/-- `std::thread::Thread`: a thread descriptor carrying its id and optional name. -/
structure Thread where
  id : ThreadId
  name : Option String
deriving DecidableEq

/-- The `panicked: HashMap<ThreadId, Thread>` field, embedded as an association
list keyed by `ThreadId`. -/
abbrev PanickedMap := List (ThreadId × Thread)

/-- The opaque `&PanicInfo` argument the panic hook receives and forwards. -/
abbrev PanicInfo := Nat

namespace PanicMonitor

/-- `HashMap::get`: the value stored at key `i`, if any. -/
def lookup (m : PanickedMap) (i : ThreadId) : Option Thread :=
  match m with
  | [] => none
  | (k, v) :: rest => if k = i then some v else lookup rest i

/-- `panicked.insert(current.id(), current)` from the hook in `init`:
HashMap insert, replacing the value if the key is already present. -/
def insert (m : PanickedMap) (t : Thread) : PanickedMap :=
  match m with
  | [] => [(t.id, t)]
  | (k, v) :: rest => if k = t.id then (k, t) :: rest else (k, v) :: insert rest t

/-- The scan shared by `check`, `wait` and `wait_timeout`:
`for tid in watch_list { if let Some(t) = panicked.get(tid) { watched_panicked.push(t.clone()) } }`.
This is also the whole body of `PanicMonitor::check` (lib.rs lines 175-184). -/
def check (m : PanickedMap) (watch_list : List ThreadId) : List Thread :=
  watch_list.filterMap (fun tid => lookup m tid)

/-- Every key/value pair of the map pairs a thread with its own id.  This holds
for every map the hook can build, since the hook inserts `(current.id(), current)`. -/
def WfMap (m : PanickedMap) : Prop :=
  ∀ p ∈ m, (p.2).id = p.1

instance (m : PanickedMap) : Decidable (WfMap m) := by
  unfold WfMap; infer_instance

/-- The map after a sequence of hook firings, starting from the empty map of
`PanicMonitor::new`. -/
def stateAfter (firings : List Thread) : PanickedMap :=
  firings.foldl insert []

/-- Thread identities are never reused while the process is alive: two hook
firings with the same id come from the same thread, hence carry equal
descriptors.  (Rust guarantees `ThreadId` uniqueness for coexisting threads.) -/
def Coherent (firings : List Thread) : Prop :=
  ∀ t ∈ firings, ∀ u ∈ firings, t.id = u.id → t = u

instance (firings : List Thread) : Decidable (Coherent firings) := by
  unfold Coherent; infer_instance

/-- `PanicMonitor::wait` (lib.rs lines 130-142): loop scanning the map, returning
the scan result as soon as it is non-empty, otherwise blocking on the condvar.
`wakeups` is the sequence of map contents observed after each condvar wake-up;
`none` means the loop did not return within the modeled wake-ups (still blocked). -/
def wait (watch_list : List ThreadId) (m : PanickedMap) (wakeups : List PanickedMap) :
    Option (List Thread) :=
  let watched_panicked := check m watch_list
  if watched_panicked.length > 0 then some watched_panicked
  else
    match wakeups with
    | [] => none
    | m2 :: rest => wait watch_list m2 rest

/-- One observed return from `Condvar::wait_timeout` inside `wait_timeout`:
`timedOut` is `res.timed_out()`, `elapsed` is the measured `now.elapsed()`
(durations in nanoseconds), and `newState` is the map contents guarded by the
returned lock guard. -/
structure WakeEvent where
  timedOut : Bool
  elapsed : Nat
  newState : PanickedMap
deriving DecidableEq

/-- Outcome of a modeled `wait_timeout` run: a returned vector together with the
total measured elapsed time, or `pending` when the loop is still blocked after
the modeled wake-ups, or `panicked` when `dur -= elapsed` underflowed (Rust
`Duration` subtraction panics on underflow). -/
inductive TimeoutOutcome where
  | result (threads : List Thread) (elapsed : Nat)
  | pending
  | panicked
deriving DecidableEq

/-- Whether a run aborted on `Duration` subtraction underflow. -/
def TimeoutOutcome.isPanicked : TimeoutOutcome → Bool
  | .panicked => true
  | _ => false

/-- Rust `Duration - Duration`: defined only when no underflow occurs;
`none` models the panic on underflow. -/
def durationSub (a b : Nat) : Option Nat :=
  if b ≤ a then some (a - b) else none

/-- `PanicMonitor::wait_timeout` (lib.rs lines 150-167): loop scanning the map;
on a non-empty scan return it; otherwise wait on the condvar with the remaining
duration `dur`; if the wait reports timed-out, or the measured elapsed time is
at least `dur`, return the empty vector; otherwise subtract the elapsed time
from `dur` and loop.  The outcome carries the accumulated measured elapsed
time at the point of return. -/
def wait_timeout (watch_list : List ThreadId) (m : PanickedMap) (dur : Nat)
    (events : List WakeEvent) : TimeoutOutcome :=
  let watched_panicked := check m watch_list
  if watched_panicked.length > 0 then .result watched_panicked 0
  else
    match events with
    | [] => .pending
    | e :: rest =>
      if e.timedOut = true ∨ dur ≤ e.elapsed then .result [] e.elapsed
      else
        match durationSub dur e.elapsed with
        | none => .panicked
        | some dur2 =>
          match wait_timeout watch_list e.newState dur2 rest with
          | .result r t => .result r (e.elapsed + t)
          | o => o

/-- A wake-up schedule honours the platform guarantee of `Condvar::wait_timeout`:
the timed-out flag is reported only when at least the requested remaining
duration has actually elapsed. -/
def wellTimed : Nat → List WakeEvent → Bool
  | _, [] => true
  | d, e :: es => (!e.timedOut || decide (d ≤ e.elapsed)) && wellTimed (d - e.elapsed) es

/-- Observable state the panic hook acts on: the panicked map, the number of
condvar broadcasts issued (each `notify_all` wakes every blocked waiter), and
the list of panic infos forwarded to the previously installed hook. -/
structure HookWorld where
  panicked : PanickedMap
  notifications : Nat
  prevHookCalls : List PanicInfo
deriving DecidableEq

/-- `panicked.insert(current.id(), current)` step of the hook. -/
def recordPanicking (w : HookWorld) (current : Thread) : HookWorld :=
  { w with panicked := insert w.panicked current }

/-- `self.cvar.notify_all()` step of the hook: one broadcast waking all waiters. -/
def notifyAllWaiters (w : HookWorld) : HookWorld :=
  { w with notifications := w.notifications + 1 }

/-- `hook(x)` step of the hook: forward the panic info to the previous hook. -/
def callPrevHook (w : HookWorld) (x : PanicInfo) : HookWorld :=
  { w with prevHookCalls := w.prevHookCalls ++ [x] }

/-- The closure installed by `PanicMonitor::init` (lib.rs lines 111-122), in
source order: record the panicking thread, broadcast, chain to the previous hook. -/
def hookFire (w : HookWorld) (current : Thread) (x : PanicInfo) : HookWorld :=
  callPrevHook (notifyAllWaiters (recordPanicking w current)) x

theorem lookup_insert_self (m : PanickedMap) (t : Thread) :
    lookup (insert m t) t.id = some t := by
  induction m with
  | nil => simp [insert, lookup]
  | cons p rest ih =>
      obtain ⟨k, v⟩ := p
      by_cases h : k = t.id <;> simp [insert, lookup, h, ih]

theorem lookup_insert_ne (m : PanickedMap) (t : Thread) (i : ThreadId) (h : i ≠ t.id) :
    lookup (insert m t) i = lookup m i := by
  induction m with
  | nil => simp [insert, lookup, Ne.symm h]
  | cons p rest ih =>
      obtain ⟨k, v⟩ := p
      by_cases hk : k = t.id
      · subst hk
        simp [insert, lookup, Ne.symm h]
      · simp [insert, lookup, hk, ih]

theorem wfMap_insert (m : PanickedMap) (t : Thread) (h : WfMap m) :
    WfMap (insert m t) := by
  induction m with
  | nil => intro p hp; simp [insert] at hp; simp [hp]
  | cons q rest ih =>
      obtain ⟨k, v⟩ := q
      have hrest : WfMap rest := fun p hp => h p (List.mem_cons_of_mem _ hp)
      by_cases hk : k = t.id
      · intro p hp
        simp [insert, hk] at hp
        rcases hp with hp | hp
        · simp [hp, hk]
        · exact hrest p hp
      · intro p hp
        simp [insert, hk] at hp
        rcases hp with hp | hp
        · subst hp; exact h (k, v) (by simp)
        · exact ih hrest p hp

theorem wfMap_foldl (init : PanickedMap) (l : List Thread) (h : WfMap init) :
    WfMap (l.foldl insert init) := by
  induction l generalizing init with
  | nil => exact h
  | cons t rest ih => exact ih (insert init t) (wfMap_insert init t h)

theorem wfMap_stateAfter (firings : List Thread) : WfMap (stateAfter firings) := by
  exact wfMap_foldl [] firings (fun p hp => by cases hp)

theorem wfMap_lookup (m : PanickedMap) (hm : WfMap m) (i : ThreadId) (t : Thread)
    (h : lookup m i = some t) : t.id = i := by
  induction m with
  | nil => simp [lookup] at h
  | cons p rest ih =>
      obtain ⟨k, v⟩ := p
      simp only [lookup] at h
      by_cases hk : k = i
      · rw [if_pos hk] at h
        have hv : v.id = k := hm (k, v) (by simp)
        have hvt : v = t := by injection h
        rw [← hvt, hv]
        exact hk
      · rw [if_neg hk] at h
        exact ih (fun p hp => hm p (List.mem_cons_of_mem _ hp)) h

theorem mem_check_iff (m : PanickedMap) (hm : WfMap m) (w : List ThreadId) (t : Thread) :
    t ∈ check m w ↔ t.id ∈ w ∧ lookup m t.id = some t := by
  constructor
  · intro h
    rcases List.mem_filterMap.1 h with ⟨i, hi, hlk⟩
    have hid := wfMap_lookup m hm i t hlk
    subst hid
    exact ⟨hi, hlk⟩
  · intro ⟨hw, hlk⟩
    exact List.mem_filterMap.2 ⟨t.id, hw, hlk⟩

/-- C1: for every reachable monitor state and watch list, `check` returns exactly
the descriptors of watch-list identities present in the terminated-set: a
descriptor is in the result iff its identity is in the watch list and the map
holds that descriptor at that identity — no false positives, no false negatives. -/
theorem C1_check_exact (firings : List Thread) (w : List ThreadId) (t : Thread) :
    t ∈ check (stateAfter firings) w ↔
      t.id ∈ w ∧ lookup (stateAfter firings) t.id = some t :=
  mem_check_iff _ (wfMap_stateAfter firings) w t

theorem mem_check_of_lookup (m : PanickedMap) (w : List ThreadId) (i : ThreadId)
    (t : Thread) (hi : i ∈ w) (h : lookup m i = some t) : t ∈ check m w :=
  List.mem_filterMap.2 ⟨i, hi, h⟩

theorem wait_of_match (w : List ThreadId) (m : PanickedMap) (wakeups : List PanickedMap)
    (h : check m w ≠ []) : wait w m wakeups = some (check m w) := by
  have hlen : (check m w).length > 0 := List.length_pos.2 h
  cases wakeups with
  | nil => simp [wait, hlen]
  | cons m2 rest => simp [wait, hlen]

theorem wait_some (w : List ThreadId) (m : PanickedMap) (wakeups : List PanickedMap)
    (r : List Thread) (h : wait w m wakeups = some r) :
    r ≠ [] ∧ ∃ m2 ∈ m :: wakeups, r = check m2 w := by
  induction wakeups generalizing m with
  | nil =>
      by_cases hc : (check m w).length > 0
      · simp [wait, hc] at h
        exact ⟨h ▸ List.length_pos.1 hc, m, by simp, h.symm⟩
      · simp [wait, hc] at h
  | cons m2 rest ih =>
      by_cases hc : (check m w).length > 0
      · simp [wait, hc] at h
        exact ⟨h ▸ List.length_pos.1 hc, m, by simp, h.symm⟩
      · simp [wait, hc] at h
        obtain ⟨hne, m3, hm3, hr⟩ := ih m2 h
        exact ⟨hne, m3, List.mem_cons_of_mem m hm3, hr⟩

/-- C2: whenever `wait` returns, the result is non-empty and consists of
descriptors of watch-list identities present in the terminated-set at some
observed state; and if a watched identity is already present at call time,
`wait` returns immediately with the scan of the call-time state, consuming no
wake-ups (level-triggered). -/
theorem C2_wait_spec (w : List ThreadId) (m : PanickedMap) (wakeups : List PanickedMap)
    (hm : WfMap m) (hws : ∀ m2 ∈ wakeups, WfMap m2) :
    (check m w ≠ [] → wait w m wakeups = some (check m w)) ∧
    (∀ r, wait w m wakeups = some r →
       r ≠ [] ∧ ∃ m2 ∈ m :: wakeups, r = check m2 w ∧
         ∀ t ∈ r, t.id ∈ w ∧ lookup m2 t.id = some t) := by
  refine ⟨fun h => wait_of_match w m wakeups h, fun r h => ?_⟩
  obtain ⟨hne, m2, hm2, hr⟩ := wait_some w m wakeups r h
  have hwf : WfMap m2 := by
    rcases List.mem_cons.1 hm2 with hm2 | hm2
    · exact hm2 ▸ hm
    · exact hws m2 hm2
  refine ⟨hne, m2, hm2, hr, fun t ht => (mem_check_iff m2 hwf w t).1 (hr ▸ ht)⟩

/-- Witness for C2 at a concrete state: thread 1 already panicked, watch list
[1]; `wait` returns immediately with its descriptor. -/
theorem C2_wait_spec_witness :
    wait [1] [(1, ⟨1, none⟩)] [] = some [⟨1, none⟩] := by
  have h := C2_wait_spec [1] [(1, ⟨1, none⟩)] [] (by decide) (by decide)
  exact h.1 (by decide)

/-- C4 counterexample: with watch list [1, 1] and thread 1 terminated, `wait`
returns thread 1's descriptor twice — one entry per watch-list occurrence — so
the result is not deduplicated by identity when the watch list repeats one. -/
theorem C4_counterexample :
    wait [1, 1] [(1, ⟨1, none⟩)] [] = some [⟨1, none⟩, ⟨1, none⟩] ∧
    ¬ List.Pairwise (fun a b : Thread => a.id ≠ b.id) [⟨1, none⟩, ⟨1, none⟩] := by
  constructor
  · rfl
  · intro h
    exact (List.pairwise_cons.1 h).1 ⟨1, none⟩ (by simp) rfl

theorem check_pairwise_ne (m : PanickedMap) (hm : WfMap m) (w : List ThreadId)
    (hw : w.Nodup) : List.Pairwise (fun a b : Thread => a.id ≠ b.id) (check m w) := by
  induction w with
  | nil => simp [check]
  | cons i rest ih =>
      have hi : i ∉ rest := (List.nodup_cons.1 hw).1
      have hrest := (List.nodup_cons.1 hw).2
      cases hlk : lookup m i with
      | none => simpa [check, List.filterMap_cons, hlk] using ih hrest
      | some t =>
          have hti : t.id = i := wfMap_lookup m hm i t hlk
          have htail := ih hrest
          simp only [check, List.filterMap_cons, hlk]
          refine List.pairwise_cons.2 ⟨fun b hb => ?_, htail⟩
          rcases List.mem_filterMap.1 hb with ⟨j, hj, hlkj⟩
          have hbj : b.id = j := wfMap_lookup m hm j b hlkj
          rw [hti, hbj]
          intro hij
          exact hi (hij ▸ hj)

/-- C4 amended: `wait` returns all currently-terminated entries among the watch
list — one entry per watch-list occurrence of a terminated identity — so the
result is deduplicated by identity exactly when the watch list itself contains
no duplicate identities. -/
theorem C4_amended_wait_complete_nodup (w : List ThreadId) (m : PanickedMap)
    (wakeups : List PanickedMap) (hm : WfMap m) (hws : ∀ m2 ∈ wakeups, WfMap m2)
    (hw : w.Nodup) (r : List Thread) (h : wait w m wakeups = some r) :
    (∃ m2 ∈ m :: wakeups, r = check m2 w ∧
       ∀ i ∈ w, ∀ t, lookup m2 i = some t → t ∈ r) ∧
    List.Pairwise (fun a b : Thread => a.id ≠ b.id) r := by
  obtain ⟨hne, m2, hm2, hr⟩ := wait_some w m wakeups r h
  have hwf : WfMap m2 := by
    rcases List.mem_cons.1 hm2 with hm2 | hm2
    · exact hm2 ▸ hm
    · exact hws m2 hm2
  refine ⟨⟨m2, hm2, hr, fun i hi t ht => hr ▸ mem_check_of_lookup m2 w i t hi ht⟩, ?_⟩
  exact hr ▸ check_pairwise_ne m2 hwf w hw

/-- Witness for the amended C4: watch list [1, 2] with only thread 1
terminated; `wait` returns exactly one copy of its descriptor. -/
theorem C4_amended_wait_complete_nodup_witness :
    (∃ m2 ∈ [[((1 : ThreadId), (⟨1, none⟩ : Thread))]],
       [(⟨1, none⟩ : Thread)] = check m2 [1, 2] ∧
       ∀ i ∈ [1, 2], ∀ t, lookup m2 i = some t → t ∈ [(⟨1, none⟩ : Thread)]) ∧
    List.Pairwise (fun a b : Thread => a.id ≠ b.id) [(⟨1, none⟩ : Thread)] :=
  C4_amended_wait_complete_nodup [1, 2] [(1, ⟨1, none⟩)] [] (by decide) (by decide)
    (by decide) [⟨1, none⟩] rfl

theorem wait_nil_watch (m : PanickedMap) (wakeups : List PanickedMap) :
    wait [] m wakeups = none := by
  induction wakeups generalizing m with
  | nil => simp [wait, check]
  | cons m2 rest ih => simp [wait, check, ih]

theorem wait_timeout_noMatch_elapsed (w : List ThreadId) (m : PanickedMap) (dur : Nat)
    (events : List WakeEvent) (hm : check m w = [])
    (hev : ∀ e ∈ events, check e.newState w = []) (hpos : 0 < dur)
    (hdur : dur ≤ (events.map WakeEvent.elapsed).sum) :
    ∃ t, wait_timeout w m dur events = TimeoutOutcome.result [] t := by
  induction events generalizing m dur with
  | nil => simp at hdur; omega
  | cons e rest ih =>
      have hlen : ¬ (check m w).length > 0 := by simp [hm]
      by_cases hstop : e.timedOut = true ∨ dur ≤ e.elapsed
      · exact ⟨e.elapsed, by simp [wait_timeout, hlen, hstop]⟩
      · push_neg at hstop
        have hel : e.elapsed < dur := hstop.2
        have hsub : durationSub dur e.elapsed = some (dur - e.elapsed) := by
          simp [durationSub, Nat.le_of_lt hel]
        have hrec := ih e.newState (dur - e.elapsed)
          (hev e (by simp))
          (fun e2 he2 => hev e2 (by simp [he2]))
          (by omega)
          (by simp at hdur; simp; omega)
        obtain ⟨t, ht⟩ := hrec
        refine ⟨e.elapsed + t, ?_⟩
        simp [wait_timeout, hlen, hstop.1, Nat.not_le.2 hel, hsub, ht]

theorem wait_timeout_of_match (w : List ThreadId) (m : PanickedMap) (dur : Nat)
    (events : List WakeEvent) (h : check m w ≠ []) :
    wait_timeout w m dur events = TimeoutOutcome.result (check m w) 0 := by
  have hlen : (check m w).length > 0 := List.length_pos.2 h
  cases events <;> simp [wait_timeout, hlen]

theorem wait_timeout_empty_le (w : List ThreadId) (m : PanickedMap) (dur : Nat)
    (events : List WakeEvent) (hwt : wellTimed dur events = true) (t : Nat)
    (h : wait_timeout w m dur events = TimeoutOutcome.result [] t) : dur ≤ t := by
  induction events generalizing m dur t with
  | nil =>
      by_cases hc : (check m w).length > 0
      · simp [wait_timeout, hc] at h
        rw [h.1] at hc
        simp at hc
      · simp [wait_timeout, hc] at h
  | cons e rest ih =>
      simp only [wellTimed, Bool.and_eq_true, Bool.or_eq_true, Bool.not_eq_eq_eq_not,
        Bool.not_true, decide_eq_true_eq] at hwt
      by_cases hc : (check m w).length > 0
      · simp [wait_timeout, hc] at h
        rw [h.1] at hc
        simp at hc
      · by_cases hstop : e.timedOut = true ∨ dur ≤ e.elapsed
        · simp [wait_timeout, hc, hstop] at h
          rcases hstop with hstop | hstop
          · rcases hwt.1 with hwt1 | hwt1
            · rw [hstop] at hwt1; cases hwt1
            · omega
          · omega
        · push_neg at hstop
          have hel : e.elapsed < dur := hstop.2
          have hsub : durationSub dur e.elapsed = some (dur - e.elapsed) := by
            simp [durationSub, Nat.le_of_lt hel]
          simp only [wait_timeout, hc, if_false, hstop.1, Nat.not_le.2 hel, hsub,
            if_neg, or_self, ite_false] at h
          rcases hcase : wait_timeout w e.newState (dur - e.elapsed) rest with ⟨r2, t2⟩ | _ | _
          · rw [hcase] at h
            simp at h
            have := ih e.newState (dur - e.elapsed) hwt.2 t2 (by rw [hcase, h.1])
            omega
          · rw [hcase] at h; simp at h
          · rw [hcase] at h; simp at h

theorem wait_timeout_result_scan (w : List ThreadId) (m : PanickedMap) (dur : Nat)
    (events : List WakeEvent) (r : List Thread) (t : Nat)
    (h : wait_timeout w m dur events = TimeoutOutcome.result r t) (hne : r ≠ []) :
    ∃ m2 ∈ m :: events.map WakeEvent.newState, r = check m2 w := by
  induction events generalizing m dur t with
  | nil =>
      by_cases hc : (check m w).length > 0
      · simp [wait_timeout, hc] at h
        exact ⟨m, by simp, h.1.symm⟩
      · simp [wait_timeout, hc] at h
  | cons e rest ih =>
      by_cases hc : (check m w).length > 0
      · simp [wait_timeout, hc] at h
        exact ⟨m, by simp, h.1.symm⟩
      · by_cases hstop : e.timedOut = true ∨ dur ≤ e.elapsed
        · simp [wait_timeout, hc, hstop] at h
          exact absurd h.1 hne
        · push_neg at hstop
          have hel : e.elapsed < dur := hstop.2
          have hsub : durationSub dur e.elapsed = some (dur - e.elapsed) := by
            simp [durationSub, Nat.le_of_lt hel]
          simp only [wait_timeout, hc, if_false, hstop.1, Nat.not_le.2 hel, hsub,
            if_neg, or_self, ite_false] at h
          rcases hcase : wait_timeout w e.newState (dur - e.elapsed) rest with ⟨r2, t2⟩ | _ | _
          · rw [hcase] at h
            simp at h
            obtain ⟨m2, hm2, hr⟩ := ih e.newState (dur - e.elapsed) t2
              (by rw [hcase, h.1])
            exact ⟨m2, List.mem_cons_of_mem m (by simpa using hm2), hr⟩
          · rw [hcase] at h; simp at h
          · rw [hcase] at h; simp at h

/-- C3: `wait_timeout` returns the empty vector iff the full duration elapsed
with no watched thread panicked: (i) under the platform timing guarantee on
the timed-out flag, an empty result is returned only with measured elapsed
time at least the requested duration; (ii) a non-empty result is the scan of
an observed state (a genuine match); (iii) a match already present at call
time is returned immediately, consuming no time budget; (iv) when no watched
identity is present in any observed state and the wake-ups exhaust the
duration, the run returns the empty vector. -/
theorem C3_wait_timeout_empty_iff (w : List ThreadId) (m : PanickedMap) (dur : Nat)
    (events : List WakeEvent) (hwt : wellTimed dur events = true) :
    (∀ t, wait_timeout w m dur events = TimeoutOutcome.result [] t → dur ≤ t) ∧
    (∀ r t, wait_timeout w m dur events = TimeoutOutcome.result r t → r ≠ [] →
       ∃ m2 ∈ m :: events.map WakeEvent.newState, r = check m2 w) ∧
    (check m w ≠ [] → wait_timeout w m dur events = TimeoutOutcome.result (check m w) 0) ∧
    (check m w = [] → (∀ e ∈ events, check e.newState w = []) → 0 < dur →
       dur ≤ (events.map WakeEvent.elapsed).sum →
       ∃ t, wait_timeout w m dur events = TimeoutOutcome.result [] t) :=
  ⟨fun t h => wait_timeout_empty_le w m dur events hwt t h,
   fun r t h hne => wait_timeout_result_scan w m dur events r t h hne,
   fun h => wait_timeout_of_match w m dur events h,
   fun hm hev hpos hdur => wait_timeout_noMatch_elapsed w m dur events hm hev hpos hdur⟩

/-- Witness for C3: thread 1 already panicked, watch list [1]; `wait_timeout`
returns its descriptor with zero measured time. -/
theorem C3_wait_timeout_empty_iff_witness :
    wait_timeout [1] [(1, ⟨1, none⟩)] 5 [] =
      TimeoutOutcome.result [⟨1, none⟩] 0 := by
  have h := C3_wait_timeout_empty_iff [1] [(1, ⟨1, none⟩)] 5 [] (by decide)
  exact h.2.2.1 (by decide)

/-- C7: a spurious wake-up — not timed out, measured elapsed time below the
remaining duration, no watched thread panicked — is treated as neither success
nor timeout: the loop re-enters the wait on the newly observed state with the
remaining duration reduced by exactly the measured elapsed time. -/
theorem C7_wait_timeout_rearm (w : List ThreadId) (m : PanickedMap) (dur : Nat)
    (e : WakeEvent) (rest : List WakeEvent) (hm : check m w = [])
    (hto : e.timedOut = false) (hel : e.elapsed < dur) :
    wait_timeout w m dur (e :: rest) =
      match wait_timeout w e.newState (dur - e.elapsed) rest with
      | TimeoutOutcome.result r t => TimeoutOutcome.result r (e.elapsed + t)
      | o => o := by
  have hc : ¬ (check m w).length > 0 := by simp [hm]
  have hsub : durationSub dur e.elapsed = some (dur - e.elapsed) := by
    simp [durationSub, Nat.le_of_lt hel]
  simp [wait_timeout, hc, hto, Nat.not_le.2 hel, hsub]

/-- Witness for C7: a 3ns spurious wake-up against a 10ns budget, after which
thread 1 is found panicked with 7ns remaining. -/
theorem C7_wait_timeout_rearm_witness :
    wait_timeout [1] [] 10 [⟨false, 3, [(1, ⟨1, none⟩)]⟩] =
      TimeoutOutcome.result [⟨1, none⟩] 3 := by
  have h := C7_wait_timeout_rearm [1] [] 10 ⟨false, 3, [(1, ⟨1, none⟩)]⟩ [] rfl rfl
    (by decide)
  rw [h]
  rfl

/-- C10: the unsigned duration subtraction `dur -= elapsed` is reached only when
the measured elapsed time is strictly below the remaining duration (the empty
return fires first otherwise), so it never underflows: no run of `wait_timeout`
ends in the underflow-abort outcome. -/
theorem C10_no_duration_underflow (w : List ThreadId) (m : PanickedMap) (dur : Nat)
    (events : List WakeEvent) :
    (wait_timeout w m dur events).isPanicked = false := by
  induction events generalizing m dur with
  | nil =>
      by_cases hc : (check m w).length > 0 <;>
        simp [wait_timeout, hc, TimeoutOutcome.isPanicked]
  | cons e rest ih =>
      by_cases hc : (check m w).length > 0
      · simp [wait_timeout, hc, TimeoutOutcome.isPanicked]
      · by_cases hstop : e.timedOut = true ∨ dur ≤ e.elapsed
        · simp [wait_timeout, hc, hstop, TimeoutOutcome.isPanicked]
        · push_neg at hstop
          have hel : e.elapsed < dur := hstop.2
          have hsub : durationSub dur e.elapsed = some (dur - e.elapsed) := by
            simp [durationSub, Nat.le_of_lt hel]
          have hrec := ih e.newState (dur - e.elapsed)
          simp only [wait_timeout, hc, if_false, hstop.1, Nat.not_le.2 hel, hsub,
            if_neg, or_self, ite_false]
          rcases hcase : wait_timeout w e.newState (dur - e.elapsed) rest with ⟨r2, t2⟩ | _ | _
          · simp [TimeoutOutcome.isPanicked]
          · simp [TimeoutOutcome.isPanicked]
          · rw [hcase] at hrec; simp [TimeoutOutcome.isPanicked] at hrec

/-- C9: with an empty watch list, `wait` never returns — the scan is empty at
every iteration, so the loop re-blocks after every wake-up, whatever the
schedule — whereas `wait_timeout` with an empty watch list returns the empty
vector once the measured elapsed time of the wake-ups exhausts the duration. -/
theorem C9_empty_watch_list (m : PanickedMap) (wakeups : List PanickedMap)
    (dur : Nat) (events : List WakeEvent) :
    wait [] m wakeups = none ∧
    (0 < dur → dur ≤ (events.map WakeEvent.elapsed).sum →
      ∃ t, wait_timeout [] m dur events = TimeoutOutcome.result [] t) := by
  refine ⟨wait_nil_watch m wakeups, fun h1 h2 => ?_⟩
  exact wait_timeout_noMatch_elapsed [] m dur events rfl (fun e he => rfl) h1 h2

/-- Witness for C9: empty watch list, a single 5ns wake-up against a 5ns
duration; `wait` stays blocked and `wait_timeout` returns empty. -/
theorem C9_empty_watch_list_witness :
    wait [] [] [] = none ∧
    ∃ t, wait_timeout [] [] 5 [⟨false, 5, []⟩] = TimeoutOutcome.result [] t := by
  have h := C9_empty_watch_list [] [] 5 [⟨false, 5, []⟩]
  exact ⟨h.1, h.2 (by decide) (by decide)⟩

/-- C5: the terminated-set grows monotonically across hook firings: an
insertion never removes an entry; entries at other identities keep their
descriptor exactly; the entry at the inserted identity is the panicking
thread's own descriptor; and re-inserting a descriptor already present leaves
every lookup unchanged (a no-op in effect).  `wait`, `wait_timeout` and
`check` are read-only by construction: they are functions of the map and
return no modified map. -/
theorem C5_monotonic_growth (m : PanickedMap) (t u : Thread) (i : ThreadId) :
    (lookup m i = some u → ∃ v, lookup (insert m t) i = some v) ∧
    (i ≠ t.id → lookup (insert m t) i = lookup m i) ∧
    lookup (insert m t) t.id = some t ∧
    (lookup m t.id = some t → ∀ j, lookup (insert m t) j = lookup m j) := by
  refine ⟨fun h => ?_, fun h => lookup_insert_ne m t i h,
    lookup_insert_self m t, fun h j => ?_⟩
  · by_cases hit : i = t.id
    · exact ⟨t, hit ▸ lookup_insert_self m t⟩
    · exact ⟨u, (lookup_insert_ne m t i hit).trans h⟩
  · by_cases hjt : j = t.id
    · rw [hjt, lookup_insert_self, ← h]
    · exact lookup_insert_ne m t j hjt

/-- Witness for C5: a state with thread 1 panicked; inserting thread 2 keeps
thread 1's entry, and re-inserting thread 1's descriptor changes no lookup. -/
theorem C5_monotonic_growth_witness :
    (∃ v, lookup (insert [(1, ⟨1, none⟩)] ⟨2, none⟩) 1 = some v) ∧
    lookup (insert [(1, ⟨1, none⟩)] ⟨1, none⟩) 1 = lookup [(1, ⟨1, none⟩)] 1 := by
  have h1 := C5_monotonic_growth [(1, ⟨1, none⟩)] ⟨2, none⟩ ⟨1, none⟩ 1
  have h2 := C5_monotonic_growth [(1, ⟨1, none⟩)] ⟨1, none⟩ ⟨1, none⟩ 1
  exact ⟨h1.1 (by decide), h2.2.2.2 (by decide) 1⟩

theorem lookup_foldl_mem (init : PanickedMap) (l : List Thread) (i : ThreadId)
    (u : Thread) (h : lookup (l.foldl insert init) i = some u) :
    u ∈ l ∨ lookup init i = some u := by
  induction l generalizing init with
  | nil => exact Or.inr h
  | cons t rest ih =>
      rcases ih (insert init t) h with hmem | hlk
      · exact Or.inl (List.mem_cons_of_mem _ hmem)
      · by_cases hit : i = t.id
        · subst hit
          rw [lookup_insert_self] at hlk
          have : t = u := by injection hlk
          exact Or.inl (this ▸ List.mem_cons_self t rest)
        · rw [lookup_insert_ne _ _ _ hit] at hlk
          exact Or.inr hlk

theorem lookup_stateAfter_mem (fs : List Thread) (i : ThreadId) (u : Thread)
    (h : lookup (stateAfter fs) i = some u) : u ∈ fs := by
  rcases lookup_foldl_mem [] fs i u h with h2 | h2
  · exact h2
  · simp [lookup] at h2

theorem lookup_foldl_preserved (init : PanickedMap) (l : List Thread) (i : ThreadId)
    (u : Thread) (h : lookup init i = some u) (hl : ∀ t ∈ l, t.id = i → t = u) :
    lookup (l.foldl insert init) i = some u := by
  induction l generalizing init with
  | nil => exact h
  | cons t rest ih =>
      refine ih (insert init t) ?_ (fun t2 ht2 => hl t2 (List.mem_cons_of_mem _ ht2))
      by_cases hit : t.id = i
      · have htu : t = u := hl t (List.mem_cons_self t rest) hit
        rw [← hit, lookup_insert_self, htu]
      · rw [lookup_insert_ne init t i (fun hh => hit hh.symm)]
        exact h

theorem lookup_mono_firings (fs more : List Thread) (hco : Coherent (fs ++ more))
    (i : ThreadId) (u : Thread) (h : lookup (stateAfter fs) i = some u) :
    lookup (stateAfter (fs ++ more)) i = some u := by
  have hmemu : u ∈ fs := lookup_stateAfter_mem fs i u h
  have hid : u.id = i := wfMap_lookup _ (wfMap_stateAfter fs) i u h
  have hsplit : stateAfter (fs ++ more) = more.foldl insert (stateAfter fs) := by
    simp [stateAfter, List.foldl_append]
  rw [hsplit]
  refine lookup_foldl_preserved _ _ _ _ h ?_
  intro t ht hti
  exact hco t (by simp [ht]) u (by simp [hmemu]) (by rw [hti, hid])

/-- C6: results are monotone over time: once a descriptor appears in a query
result on the state after some firings, then after any further firings (with
thread identities never reused) every query whose watch list contains that
identity returns it again — `check` contains it, `wait` returns at once with a
result containing it, and `wait_timeout` likewise with zero time consumed. -/
theorem C6_result_monotone (fs more : List Thread) (w w2 : List ThreadId)
    (t : Thread) (hco : Coherent (fs ++ more)) (h : t ∈ check (stateAfter fs) w)
    (hw2 : t.id ∈ w2) :
    t ∈ check (stateAfter (fs ++ more)) w2 ∧
    (∀ wakeups, ∃ r, wait w2 (stateAfter (fs ++ more)) wakeups = some r ∧ t ∈ r) ∧
    (∀ dur events, ∃ r,
       wait_timeout w2 (stateAfter (fs ++ more)) dur events =
         TimeoutOutcome.result r 0 ∧ t ∈ r) := by
  have hm := wfMap_stateAfter fs
  obtain ⟨hidw, hlk⟩ := (mem_check_iff _ hm w t).1 h
  have hlk2 := lookup_mono_firings fs more hco t.id t hlk
  have hmem2 : t ∈ check (stateAfter (fs ++ more)) w2 :=
    mem_check_of_lookup _ w2 t.id t hw2 hlk2
  have hne : check (stateAfter (fs ++ more)) w2 ≠ [] := by
    intro hh
    rw [hh] at hmem2
    cases hmem2
  exact ⟨hmem2,
    fun wakeups => ⟨_, wait_of_match w2 _ wakeups hne, hmem2⟩,
    fun dur events => ⟨_, wait_timeout_of_match w2 _ dur events hne, hmem2⟩⟩

/-- Witness for C6: thread 1 appears for watch list [1] after its own firing,
and still appears for watch list [1, 2] after thread 2 also fires. -/
theorem C6_result_monotone_witness :
    (⟨1, none⟩ : Thread) ∈
      check (stateAfter ([⟨1, none⟩] ++ [⟨2, none⟩])) [1, 2] :=
  (C6_result_monotone [⟨1, none⟩] [⟨2, none⟩] [1] [1, 2] ⟨1, none⟩ (by decide)
    (by decide) (by decide)).1

/-- C8: one firing of the hook installed by `init` performs, in source order:
(a) the record step, after which the panicking thread's descriptor is already
stored under its identity; (b) the broadcast step, acting on the state that
already holds the record and waking every blocked waiter; (c) the chaining
step, which always forwards the panic info to the previously installed hook —
so the previous hook runs on every firing and host-level panic reporting is
never suppressed. -/
theorem C8_hook_order (w : HookWorld) (current : Thread) (x : PanicInfo) :
    hookFire w current x =
      callPrevHook (notifyAllWaiters (recordPanicking w current)) x ∧
    lookup (recordPanicking w current).panicked current.id = some current ∧
    (notifyAllWaiters (recordPanicking w current)).panicked =
      (recordPanicking w current).panicked ∧
    (notifyAllWaiters (recordPanicking w current)).notifications =
      w.notifications + 1 ∧
    (hookFire w current x).prevHookCalls = w.prevHookCalls ++ [x] ∧
    (hookFire w current x).panicked = insert w.panicked current ∧
    (hookFire w current x).notifications = w.notifications + 1 := by
  exact ⟨rfl, lookup_insert_self w.panicked current, rfl, rfl, rfl, rfl, rfl⟩

end PanicMonitor
